import Mathlib

/-!
Verification of the `multistr` packed string containers.

The development shallowly embeds the repository's core data structures:

* `Split` / `SplitRange` offset-index algebra (src/split.rs),
* the growable packed vector `Dynamic` (src/vec.rs), and
* the fixed-arity packed array (src/array.rs, `gen_impl`).

Buffers are modelled as `List Nat` (byte lists; one entry per byte or raw
element), segment values as their backing byte lists (`T::Data`), and every
Rust operation that can panic is modelled as an `Option`-returning function
where `none` is a panic.  Machine-integer overflow never matters here: all
arithmetic on offsets in the source is on `usize` values bounded by buffer
lengths, and the only subtraction (`split_off`'s rebasing) acts on a
monotone table in every state exercised below, where `Nat` subtraction and
`usize` subtraction agree.
-/

namespace Multistr

/-- A `SplitRange` (src/split.rs): a start byte offset and an optional end
byte offset; `none` means the range is open-ended (`start..`). -/
structure SplitRange where
  start : Nat
  stop : Option Nat
deriving DecidableEq, Repr

/-- `Split::get` (src/split.rs): the byte range of the `idx`-th item of a
split table `inner`.  Panics (`none`) when `idx > inner.length`; the
`idx = inner.length` branch reads `inner[idx-1]` with `get_unchecked`,
which is undefined for an empty table (also modelled as `none`; every
caller in the repository guards this branch away). -/
def splitGet (inner : List Nat) (idx : Nat) : Option SplitRange :=
  if idx > inner.length then none
  else if idx = inner.length then
    (inner.getLast?).map (fun a => ⟨a, none⟩)
  else if idx = 0 then some ⟨0, some (inner.getD 0 0)⟩
  else some ⟨inner.getD (idx - 1) 0, some (inner.getD idx 0)⟩

/-- `Split::get_slice` (src/split.rs): the byte range covering the items in
an index range.  Panics (`none`) when the start index or a closed end index
exceeds the table length, or when the resolved start byte offset exceeds
the resolved closed end byte offset (the `assert!`). -/
def splitGetSlice (inner : List Nat) (r : SplitRange) : Option SplitRange :=
  let n := inner.length
  let start? : Option Nat :=
    if r.start = 0 then some 0
    else if r.start ≤ n then some (inner.getD (r.start - 1) 0)
    else none
  match start? with
  | none => none
  | some s =>
    let stop? : Option (Option Nat) :=
      match r.stop with
      | none => some none
      | some e =>
        if e = 0 then some (some 0)
        else if e = n then some none
        else if e < n then some (some (inner.getD (e - 1) 0))
        else none
    match stop? with
    | none => none
    | some none => some ⟨s, none⟩
    | some (some e) => if s ≤ e then some ⟨s, some e⟩ else none

/-- `SplitRange::index_into` (src/split.rs), i.e. Rust slice indexing
`&buffer[start..end]` / `&buffer[start..]`: panics (`none`) when the range
is inverted or out of bounds for the buffer. -/
def sliceRange (buf : List Nat) (r : SplitRange) : Option (List Nat) :=
  match r.stop with
  | some e =>
    if r.start ≤ e ∧ e ≤ buf.length then some ((buf.take e).drop r.start)
    else none
  | none =>
    if r.start ≤ buf.length then some (buf.drop r.start) else none

/-- `SplitError` (src/split.rs). -/
inductive SplitError where
  | notMonotonic (prev next : Nat)
  | outOfBounds (idx : Nat)
deriving DecidableEq, Repr

/-- `Split::check_valid` (src/split.rs): reports the first adjacent pair
that decreases, then checks that the last offset is at most the buffer
length.  Returns `none` when the split table is valid. -/
def checkValid (inner : List Nat) (bufLen : Nat) : Option SplitError :=
  match checkPairs inner with
  | some e => some e
  | none =>
    match inner.getLast? with
    | some idx => if idx > bufLen then some (.outOfBounds idx) else none
    | none => none
where
  /-- The `windows(2)` monotonicity scan of `check_valid`. -/
  checkPairs : List Nat → Option SplitError
    | a :: b :: rest =>
      if a > b then some (.notMonotonic a b) else checkPairs (b :: rest)
    | _ => none

/-- The growable packed vector `Dynamic<T>` (src/vec.rs): a single packed
buffer (`Cow<'static, T::Data>`, byte list here) and the split table of
cumulative end offsets, one per stored segment. -/
structure Dynamic where
  buffer : List Nat
  split : List Nat
deriving DecidableEq, Repr

/-- `Dynamic::new` (src/vec.rs): the borrowed default data reference is the
empty slice for every provided segment kind (`T::Data` is `[u8]`/`[T]`). -/
def Dynamic.new : Dynamic := ⟨[], []⟩

/-- `Dynamic::push` (src/vec.rs): the new cumulative offset is the last
split entry (0 for an empty table) plus the pushed data's length, and the
data is appended to the buffer. -/
def Dynamic.push (v : Dynamic) (t : List Nat) : Dynamic :=
  ⟨v.buffer ++ t, v.split ++ [v.split.getLast?.getD 0 + t.length]⟩

/-- `Dynamic::pop` (src/vec.rs): pops the last split entry `idx` and
truncates the buffer to `idx` (Rust `Vec::truncate` clamps, hence
`List.take`); returns whether an entry was removed. -/
def Dynamic.pop (v : Dynamic) : Bool × Dynamic :=
  match v.split.getLast? with
  | none => (false, v)
  | some idx => (true, ⟨v.buffer.take idx, v.split.dropLast⟩)

/-- `Dynamic::pop_off` (src/vec.rs): pops the last split entry, reads the
tail `&buffer[idx..]` from the new last offset `idx` (a panic, `none`, if
`idx` exceeds the buffer length), copies it out, and truncates the buffer
to `idx`. -/
def Dynamic.popOff (v : Dynamic) : Option (Option (List Nat) × Dynamic) :=
  match v.split.getLast? with
  | none => some (none, v)
  | some _ =>
    let split := v.split.dropLast
    let idx := split.getLast?.getD 0
    if idx ≤ v.buffer.length then
      some (some (v.buffer.drop idx), ⟨v.buffer.take idx, split⟩)
    else none

/-- `Dynamic::append` (src/vec.rs): shifts `other`'s offsets by `self`'s
last split entry (only when `self` has one), concatenates the buffers, and
moves the shifted split entries over; `other` is left empty. -/
def Dynamic.append (a b : Dynamic) : Dynamic × Dynamic :=
  let bsplit :=
    match a.split.getLast? with
    | some idx => b.split.map (· + idx)
    | none => b.split
  (⟨a.buffer ++ b.buffer, a.split ++ bsplit⟩, ⟨[], []⟩)

/-- `Dynamic::split_off` (src/vec.rs): `Vec::split_off(at)` on the split
table (panic, `none`, when `at` exceeds the table length), rebasing the
tail entries by the retained table's last entry, then `split_off(at)` on
the *buffer* — at byte position `at` (panic, `none`, when `at` exceeds the
buffer length). -/
def Dynamic.splitOff (a : Dynamic) (at_ : Nat) : Option (Dynamic × Dynamic) :=
  if at_ > a.split.length then none
  else
    let selfSplit := a.split.take at_
    let newSplit :=
      match selfSplit.getLast? with
      | some idx => (a.split.drop at_).map (· - idx)
      | none => a.split.drop at_
    if at_ > a.buffer.length then none
    else some (⟨a.buffer.take at_, selfSplit⟩, ⟨a.buffer.drop at_, newSplit⟩)

/-- `Dynamic::truncate` (src/vec.rs): truncates the buffer to the offset
`self.split[len]` — a panic (`none`) when `len` is not below the split
table length — and then truncates the split table to `len` entries. -/
def Dynamic.truncate (v : Dynamic) (len : Nat) : Option Dynamic :=
  if h : len < v.split.length then
    some ⟨v.buffer.take (v.split.get ⟨len, h⟩), v.split.take len⟩
  else none

/-- `Dynamic::clear` (src/vec.rs): empties buffer and split table. -/
def Dynamic.clear (_v : Dynamic) : Dynamic := ⟨[], []⟩

/-- `Extend for Dynamic` (src/vec.rs): pushes each item in order. -/
def Dynamic.extendList (v : Dynamic) (ts : List (List Nat)) : Dynamic :=
  ts.foldl Dynamic.push v

/-- `FromIterator for Dynamic` (src/vec.rs): starts from `Dynamic::new`
and pushes each item in order. -/
def Dynamic.fromList (ts : List (List Nat)) : Dynamic :=
  ts.foldl Dynamic.push Dynamic.new

/-- `Index<usize> for Dynamic` (src/vec.rs): `assert_ne!(index, len)`,
then `Split::get` and `SplitRange::index_into`; the resulting data is
reinterpreted by `from_data_unchecked`, the identity on byte lists. -/
def Dynamic.index (v : Dynamic) (i : Nat) : Option (List Nat) :=
  if i = v.split.length then none
  else
    match splitGet v.split i with
    | none => none
    | some r => sliceRange v.buffer r

/-- `Index<Range<usize>> for Dynamic` (src/vec.rs): `Split::get_slice` on
`lo..hi`, then `index_into` the buffer. -/
def Dynamic.indexRange (v : Dynamic) (lo hi : Nat) : Option (List Nat) :=
  match splitGetSlice v.split ⟨lo, some hi⟩ with
  | none => none
  | some r => sliceRange v.buffer r

/-- `Index<RangeFull> for Dynamic` (src/vec.rs): reinterprets the whole
buffer unchecked; never fails. -/
def Dynamic.indexFull (v : Dynamic) : List Nat := v.buffer

/-- `Iter::next` (src/iter.rs) iterated to exhaustion starting at index
`i`: each step takes `Split::get(idx).index_into(buffer)` while
`idx < split.len()`, and `none` records a panicking step.  The loop is
driven by explicit fuel (structural recursion); passing any fuel of at
least `split.length - i` — as `iterList` does — runs it to exhaustion. -/
def Dynamic.segsAux (v : Dynamic) : Nat → Nat → Option (List (List Nat))
  | _, 0 => some []
  | i, fuel + 1 =>
    if i < v.split.length then
      match splitGet v.split i with
      | none => none
      | some r =>
        match sliceRange v.buffer r with
        | none => none
        | some s =>
          match Dynamic.segsAux v (i + 1) fuel with
          | none => none
          | some rest => some (s :: rest)
    else some []

/-- Collecting `Dynamic::iter` (src/vec.rs, src/iter.rs) from the start. -/
def Dynamic.iterList (v : Dynamic) : Option (List (List Nat)) :=
  v.segsAux 0 v.split.length

/-- `PartialEq for Dynamic` (src/vec.rs): `self.iter().eq(rhs.iter())`,
elementwise equality of the yielded segment sequences.  The source's
iterator comparison is lazy; this strict model agrees with it whenever
both iterations run to completion, which holds in every state compared
below. -/
def Dynamic.eqSeq (a b : Dynamic) : Option Bool :=
  match a.iterList, b.iterList with
  | some x, some y => some (decide (x = y))
  | _, _ => none

/-- `Hash for Dynamic` (src/vec.rs) feeds the raw buffer and then the split
table to the hasher; two vectors hash equally exactly when these streams
coincide. -/
def Dynamic.hashInput (v : Dynamic) : List Nat × List Nat :=
  (v.buffer, v.split)

/-- The structural invariant claimed by the spec: the split table is
non-decreasing (`Pairwise (· ≤ ·)`, which for the transitive `≤` is the
same as adjacent monotonicity) and its last entry (0 when the table is
empty) equals the buffer length. -/
def Inv (v : Dynamic) : Prop :=
  v.split.Pairwise (· ≤ ·) ∧ v.split.getLast?.getD 0 = v.buffer.length

instance : DecidablePred Inv := fun v =>
  inferInstanceAs
    (Decidable (v.split.Pairwise (· ≤ ·) ∧
      v.split.getLast?.getD 0 = v.buffer.length))

/-- The vectors reachable from `Dynamic::new` through the public mutating
operations of src/vec.rs (partial operations contribute their `some`
results). -/
inductive Reachable : Dynamic → Prop where
  | new : Reachable Dynamic.new
  | push (v : Dynamic) (t : List Nat) : Reachable v → Reachable (v.push t)
  | pop (v : Dynamic) : Reachable v → Reachable v.pop.2
  | popOff (v : Dynamic) (r : Option (List Nat) × Dynamic) :
      Reachable v → v.popOff = some r → Reachable r.2
  | appendLeft (a b : Dynamic) : Reachable a → Reachable b →
      Reachable (a.append b).1
  | appendRight (a b : Dynamic) : Reachable a → Reachable b →
      Reachable (a.append b).2
  | splitOffLeft (v : Dynamic) (k : Nat) (r : Dynamic × Dynamic) :
      Reachable v → v.splitOff k = some r → Reachable r.1
  | splitOffRight (v : Dynamic) (k : Nat) (r : Dynamic × Dynamic) :
      Reachable v → v.splitOff k = some r → Reachable r.2
  | truncate (v : Dynamic) (len : Nat) (w : Dynamic) :
      Reachable v → v.truncate len = some w → Reachable w
  | clear (v : Dynamic) : Reachable v → Reachable v.clear
  | extend (v : Dynamic) (ts : List (List Nat)) :
      Reachable v → Reachable (v.extendList ts)

/-- A fixed-arity packed array `Static$N<T>` (src/array.rs, `gen_impl`):
a packed buffer and a split table `[usize; N]`; the arity `N` is the split
table's length. -/
structure StaticArr where
  buffer : List Nat
  split : List Nat
deriving DecidableEq, Repr

/-- `Default for Static$N` (src/array.rs): starts the buffer as one copy of
the default segment's data `d`, then, for each of the `N` split slots,
stores the running accumulator (starting at 0) and pushes another copy of
`d` — leaving `N + 1` copies of `d` in the buffer and the split table
`[0, len, 2*len, ...]`. -/
def staticDefault (n : Nat) (d : List Nat) : StaticArr :=
  { buffer := (List.replicate (n + 1) d).flatten,
    split := defaultSplit d.length 0 n }
where
  /-- The split-filling loop of `default()`: writes the accumulator before
  adding the default length. -/
  defaultSplit (len acc : Nat) : Nat → List Nat
    | 0 => []
    | k + 1 => acc :: defaultSplit len (acc + len) k

/-- `Index<usize> for Static$N` (src/array.rs): `assert_ne!(index, N)`
with `N` the split table length, then `Split::get` + `index_into` +
`from_data_unchecked`. -/
def StaticArr.index (a : StaticArr) (i : Nat) : Option (List Nat) :=
  if i = a.split.length then none
  else
    match splitGet a.split i with
    | none => none
    | some r => sliceRange a.buffer r

/-- `Index<RangeFull> for Static$N` (src/array.rs): reinterprets the whole
buffer unchecked; never fails. -/
def StaticArr.indexFull (a : StaticArr) : List Nat := a.buffer

/-- Modelled from the spec and std's documented contract: Rust's
`str::from_utf8` validation (the `StrLike for str` conversion in
src/strlike.rs delegates to it).  Accepts exactly the byte lists that are
well-formed UTF-8: ASCII, 2-byte sequences `C2..DF` + continuation,
3-byte sequences with the `E0`/`ED` surrogate and overlong exclusions, and
4-byte sequences with the `F0`/`F4` range exclusions; continuation bytes
are `80..BF`. -/
def utf8Valid : List Nat → Bool
  | [] => true
  | b :: rest =>
    if b < 0x80 then utf8Valid rest
    else if 0xC2 ≤ b ∧ b ≤ 0xDF then
      match rest with
      | c :: rest2 => cont c && utf8Valid rest2
      | [] => false
    else if b = 0xE0 then
      match rest with
      | c :: c2 :: rest2 => (0xA0 ≤ c && c ≤ 0xBF) && cont c2 && utf8Valid rest2
      | _ => false
    else if (0xE1 ≤ b ∧ b ≤ 0xEC) ∨ b = 0xEE ∨ b = 0xEF then
      match rest with
      | c :: c2 :: rest2 => cont c && cont c2 && utf8Valid rest2
      | _ => false
    else if b = 0xED then
      match rest with
      | c :: c2 :: rest2 => (0x80 ≤ c && c ≤ 0x9F) && cont c2 && utf8Valid rest2
      | _ => false
    else if b = 0xF0 then
      match rest with
      | c :: c2 :: c3 :: rest2 =>
        (0x90 ≤ c && c ≤ 0xBF) && cont c2 && cont c3 && utf8Valid rest2
      | _ => false
    else if 0xF1 ≤ b ∧ b ≤ 0xF3 then
      match rest with
      | c :: c2 :: c3 :: rest2 => cont c && cont c2 && cont c3 && utf8Valid rest2
      | _ => false
    else if b = 0xF4 then
      match rest with
      | c :: c2 :: c3 :: rest2 =>
        (0x80 ≤ c && c ≤ 0x8F) && cont c2 && cont c3 && utf8Valid rest2
      | _ => false
    else false
where
  /-- A UTF-8 continuation byte. -/
  cont (c : Nat) : Bool := 0x80 ≤ c && c ≤ 0xBF

/-- `from_raw` for `Static$N` (src/array.rs): runs `Split::check_valid`
against the buffer length (panicking, `none`, on the first violation), then
re-validates each of the `N` delimited segments through the segment kind's
`from_data` (modelled by the `valid` predicate); on success the parts are
stored as given. -/
def StaticArr.fromRaw (valid : List Nat → Bool) (buffer split : List Nat) :
    Option StaticArr :=
  match checkValid split buffer.length with
  | some _ => none
  | none =>
    match (List.range split.length).mapM (fun i =>
        match splitGet split i with
        | none => none
        | some r => sliceRange buffer r) with
    | none => none
    | some segs => if segs.all valid then some ⟨buffer, split⟩ else none

/-- C1: the spec claims that every vector reachable through the public
operations has a non-decreasing offset table whose last entry equals the
buffer length.  The code violates this: pushing `"a"` and `"b"` and then
popping leaves the buffer as `"ab"` (`pop` truncates the buffer to the
*popped* offset, the old buffer length, a no-op) while the offset table
shrinks to `[1]`, so the last entry 1 differs from the buffer length 2. -/
theorem pop_breaks_offset_invariant :
    Reachable ((((Dynamic.new.push [97]).push [98]).pop).2) ∧
    (((Dynamic.new.push [97]).push [98]).pop).2 =
      ⟨[97, 98], [1]⟩ ∧
    ¬ Inv ((((Dynamic.new.push [97]).push [98]).pop).2) :=
  ⟨Reachable.pop _ (Reachable.push _ _ (Reachable.push _ _ Reachable.new)),
   by decide, by decide⟩

/-- C2: the spec claims `truncate(len)` keeps exactly the first `len`
segments (buffer cut at the end offset of segment `len - 1`) and is a
no-op for `len ≥` the segment count.  The code instead truncates the
buffer at `self.split[len]` — the end offset of segment `len`: truncating
`["a","b"]` to one segment leaves the buffer `"ab"` (expected `"a"`), and
truncating `["a"]` to 1 panics on the out-of-range `split[1]` instead of
being a no-op. -/
theorem truncate_wrong_offset_and_panics :
    (Dynamic.fromList [[97], [98]]).truncate 1 = some ⟨[97, 98], [1]⟩ ∧
    (Dynamic.fromList [[97]]).truncate 1 = none := by
  decide

/-- C3: the spec claims `split_off(k)` retains segments `[0, k)` in `self`,
rebases the tail, and fails only when `k` exceeds the segment count.  The
code splits the *buffer* at byte position `k` rather than at the byte
offset `split[k-1]`: `["", ""].split_off(1)` panics (byte 1 is past the
empty buffer) even though `1 ≤ 2`, and `["ab","cd"].split_off(1)` leaves
`self` with buffer `"a"` but offset table `[2]` — its single segment is
not `"ab"` (indexing it panics: the recorded end offset 2 exceeds the
1-byte buffer). -/
theorem splitOff_splits_buffer_at_index :
    (Dynamic.fromList [[], []]).splitOff 1 = none ∧
    (Dynamic.fromList [[97, 98], [99, 100]]).splitOff 1 =
      some (⟨[97], [2]⟩, ⟨[98, 99, 100], [2]⟩) ∧
    (Dynamic.mk [97] [2]).index 0 = none := by
  decide

/-- C4: the spec claims `push(x); pop()` restores the prior container in
deep equality.  The code's `pop` truncates the buffer to the popped
cumulative offset — the current buffer end, a no-op — so after pushing
`"a"` onto the empty vector and popping, the buffer still holds `"a"`:
`pop` returns true but the container is `{buffer: "a", split: []}`, not
the empty vector (`pop` on the empty vector does return false). -/
theorem push_pop_not_inverse :
    (Dynamic.new.push [97]).pop = (true, ⟨[97], []⟩) ∧
    (⟨[97], []⟩ : Dynamic) ≠ Dynamic.new ∧
    Dynamic.new.pop = (false, Dynamic.new) := by
  decide

/-- C5: the spec claims that on every reachable container of a
concatenation-safe kind, `container[lo..hi]` is the concatenation of
segments `lo..hi-1` and `container[..]` the concatenation of all segments.
On the reachable vector left by `push "a"; push "b"; pop()` (buffer
`"ab"`, offsets `[1]`, single segment `"a"`), the view `[0..1]` and the
full view both return `"ab"`, not the concatenation `"a"`. -/
theorem range_view_not_concat_on_reachable :
    Reachable ((((Dynamic.new.push [97]).push [98]).pop).2) ∧
    ((((Dynamic.new.push [97]).push [98]).pop).2).indexRange 0 1 =
      some [97, 98] ∧
    ((((Dynamic.new.push [97]).push [98]).pop).2).index 0 = some [97] ∧
    ((((Dynamic.new.push [97]).push [98]).pop).2).indexFull = [97, 98] :=
  ⟨Reachable.pop _ (Reachable.push _ _ (Reachable.push _ _ Reachable.new)),
   by decide, by decide, by decide⟩

/-- C6 (counterexample): the claim says sub-range indexing fails whenever
`lo > hi`, but on the vector `["ab", ""]` (offset table `[2, 2]`) the
inverted range `[2..1]` resolves both bounds to byte offset 2, the
`start ≤ end` assertion passes, and an empty view is returned instead of a
failure. -/
theorem inverted_range_succeeds :
    (Dynamic.fromList [[97, 98], []]).indexRange 2 1 = some [] ∧
    1 < 2 := by
  decide

/-- C8: the spec claims `default()` makes each of the `N` segments equal
to the kind's default value.  For `Static2<CStr>` (default C string
`"\0"`, one NUL byte) the code's loop stores the accumulator *before*
advancing it and pushes a copy of the default on top of the initial
buffer copy: the result has buffer `[0,0,0]` (three copies, not two) and
offsets `[0, 1]`, so segment 0 is the empty byte string — not the default
`"\0"` (and not even a valid C string). -/
theorem static_default_wrong_segments :
    staticDefault 2 [0] = ⟨[0, 0, 0], [0, 1]⟩ ∧
    (staticDefault 2 [0]).index 0 = some [] ∧
    [] ≠ [(0 : Nat)] := by
  decide

/-- C9: the spec claims equal containers hash equally.  The vectors
`push "a"` and `push "a"; push "b"; pop()` are both reachable, yield the
same segment sequence `["a"]` — so `PartialEq` reports them equal — but
their hash streams differ: the first hashes buffer `"a"`, the second
buffer `"ab"` (the popped bytes are never removed from the buffer). -/
theorem equal_vectors_hash_differently :
    Reachable (Dynamic.new.push [97]) ∧
    Reachable ((((Dynamic.new.push [97]).push [98]).pop).2) ∧
    (Dynamic.new.push [97]).eqSeq ((((Dynamic.new.push [97]).push [98]).pop).2) =
      some true ∧
    (Dynamic.new.push [97]).hashInput ≠
      ((((Dynamic.new.push [97]).push [98]).pop).2).hashInput :=
  ⟨Reachable.push _ _ Reachable.new,
   Reachable.pop _ (Reachable.push _ _ (Reachable.push _ _ Reachable.new)),
   by decide, by decide⟩

/-- The byte offset at which segment `lo` begins: 0 for `lo = 0`, else the
recorded end offset of segment `lo - 1` (the value `Split::get_slice`
resolves for the range start). -/
def startOff (v : Dynamic) (lo : Nat) : Nat :=
  if lo = 0 then 0 else v.split.getD (lo - 1) 0

/-- The byte offset at which the range end `hi` resolves, closed form: 0
for `hi = 0`, the buffer length for `hi` equal to the segment count (where
`Split::get_slice` leaves the range open-ended), else the recorded end
offset of segment `hi - 1`. -/
def endOffC (v : Dynamic) (hi : Nat) : Nat :=
  if hi = 0 then 0
  else if hi = v.split.length then v.buffer.length
  else v.split.getD (hi - 1) 0

theorem Inv.last_getD {v : Dynamic} (h : Inv v) :
    v.split.getD (v.split.length - 1) 0 = v.buffer.length := by
  have h2 := h.2
  rw [List.getLast?_eq_getElem?] at h2
  rw [List.getD_eq_getElem?_getD]
  exact h2

theorem Inv.getD_mono {v : Dynamic} (h : Inv v) {i j : Nat} (hij : i ≤ j)
    (hj : j < v.split.length) :
    v.split.getD i 0 ≤ v.split.getD j 0 := by
  rcases Nat.eq_or_lt_of_le hij with rfl | hlt
  · exact Nat.le_refl _
  · have hi : i < v.split.length := Nat.lt_trans hlt hj
    rw [List.getD_eq_getElem _ _ hi, List.getD_eq_getElem _ _ hj]
    exact List.pairwise_iff_getElem.mp h.1 i j hi hj hlt

theorem Inv.getD_le_buf {v : Dynamic} (h : Inv v) {i : Nat}
    (hi : i < v.split.length) :
    v.split.getD i 0 ≤ v.buffer.length := by
  have hmono := h.getD_mono (Nat.le_sub_one_of_lt hi)
    (Nat.sub_lt (Nat.lt_of_le_of_lt (Nat.zero_le i) hi) Nat.one_pos)
  exact Nat.le_trans hmono (Nat.le_of_eq h.last_getD)

theorem Inv.startOff_le_buf {v : Dynamic} (h : Inv v) {lo : Nat}
    (hlo : lo ≤ v.split.length) :
    startOff v lo ≤ v.buffer.length := by
  unfold startOff
  split
  · exact Nat.zero_le _
  · exact h.getD_le_buf (by omega)

theorem dyn_index_none_iff {v : Dynamic} (h : Inv v) (i : Nat) :
    v.index i = none ↔ v.split.length ≤ i := by
  unfold Dynamic.index
  by_cases heq : i = v.split.length
  · rw [if_pos heq]
    exact iff_of_true rfl (by omega)
  · rw [if_neg heq]
    by_cases hgt : i > v.split.length
    · conv_lhs => unfold splitGet
      rw [if_pos hgt]
      exact iff_of_true rfl (by omega)
    · have hlt : i < v.split.length := by omega
      have hpos : 0 < v.split.length := Nat.lt_of_le_of_lt (Nat.zero_le i) hlt
      conv_lhs => unfold splitGet
      rw [if_neg (by omega : ¬ i > v.split.length), if_neg heq]
      by_cases h0 : i = 0
      · subst h0
        have hle : v.split.getD 0 0 ≤ v.buffer.length := h.getD_le_buf hpos
        rw [if_pos rfl]
        dsimp only
        conv_lhs => unfold sliceRange
        dsimp only
        rw [if_pos ⟨Nat.zero_le _, hle⟩]
        exact iff_of_false (Option.some_ne_none _) (by omega)
      · have hm : v.split.getD (i - 1) 0 ≤ v.split.getD i 0 :=
          h.getD_mono (by omega) hlt
        have hle : v.split.getD i 0 ≤ v.buffer.length := h.getD_le_buf hlt
        rw [if_neg h0]
        dsimp only
        conv_lhs => unfold sliceRange
        dsimp only
        rw [if_pos ⟨hm, hle⟩]
        exact iff_of_false (Option.some_ne_none _) (by omega)

theorem dyn_indexRange_none_iff {v : Dynamic} (h : Inv v) (lo hi : Nat) :
    v.indexRange lo hi = none ↔
      (v.split.length < lo ∨ v.split.length < hi ∨
        endOffC v hi < startOff v lo) := by
  unfold Dynamic.indexRange
  conv_lhs => unfold splitGetSlice
  dsimp only
  by_cases hlo : lo ≤ v.split.length
  · have hstart :
        (if lo = 0 then some 0
         else if lo ≤ v.split.length then some (v.split.getD (lo - 1) 0)
         else none) = some (startOff v lo) := by
      unfold startOff
      by_cases h0 : lo = 0
      · rw [if_pos h0, if_pos h0]
      · rw [if_neg h0, if_neg h0, if_pos hlo]
    rw [hstart]
    dsimp only
    by_cases hhi : hi ≤ v.split.length
    · by_cases hhi0 : hi = 0
      · subst hhi0
        rw [if_pos rfl]
        dsimp only
        have hend : endOffC v 0 = 0 := by unfold endOffC; rw [if_pos rfl]
        by_cases hs : startOff v lo ≤ 0
        · rw [if_pos hs]
          conv_lhs => unfold sliceRange
          dsimp only
          rw [if_pos ⟨hs, Nat.zero_le _⟩]
          refine iff_of_false (Option.some_ne_none _) ?_
          rw [hend]
          omega
        · rw [if_neg hs]
          refine iff_of_true rfl ?_
          rw [hend]
          omega
      · by_cases hhin : hi = v.split.length
        · rw [if_neg hhi0, if_pos hhin]
          dsimp only
          conv_lhs => unfold sliceRange
          dsimp only
          rw [if_pos (h.startOff_le_buf hlo)]
          have hend : endOffC v hi = v.buffer.length := by
            unfold endOffC
            rw [if_neg hhi0, if_pos hhin]
          refine iff_of_false (Option.some_ne_none _) ?_
          have hsb := h.startOff_le_buf hlo
          rw [hend]
          omega
        · have hcl : hi < v.split.length := by omega
          rw [if_neg hhi0, if_neg hhin, if_pos hcl]
          dsimp only
          have hend : endOffC v hi = v.split.getD (hi - 1) 0 := by
            unfold endOffC
            rw [if_neg hhi0, if_neg hhin]
          by_cases hcmp : startOff v lo ≤ v.split.getD (hi - 1) 0
          · rw [if_pos hcmp]
            conv_lhs => unfold sliceRange
            dsimp only
            rw [if_pos ⟨hcmp, h.getD_le_buf (by omega)⟩]
            refine iff_of_false (Option.some_ne_none _) ?_
            rw [hend]
            omega
          · rw [if_neg hcmp]
            refine iff_of_true rfl ?_
            rw [hend]
            omega
    · have h0 : hi ≠ 0 := by omega
      have h1 : hi ≠ v.split.length := by omega
      have h2 : ¬ hi < v.split.length := by omega
      rw [if_neg h0, if_neg h1, if_neg h2]
      exact iff_of_true rfl (by omega)
  · have h0 : lo ≠ 0 := by omega
    rw [if_neg h0, if_neg hlo]
    exact iff_of_true rfl (by omega)

theorem dyn_indexRange_empty {v : Dynamic} (h : Inv v) (lo : Nat)
    (hlo : lo ≤ v.split.length) :
    v.indexRange lo lo = some [] := by
  unfold Dynamic.indexRange
  conv_lhs => unfold splitGetSlice
  dsimp only
  by_cases h0 : lo = 0
  · rw [if_pos h0, if_pos h0]
    dsimp only
    rw [if_pos (Nat.le_refl 0)]
    conv_lhs => unfold sliceRange
    dsimp only
    rw [if_pos ⟨Nat.le_refl 0, Nat.zero_le _⟩]
    rw [List.take_zero, List.drop_zero]
  · rw [if_neg h0, if_pos hlo]
    dsimp only
    by_cases hn : lo = v.split.length
    · rw [if_neg h0, if_pos hn]
      dsimp only
      conv_lhs => unfold sliceRange
      dsimp only
      rw [if_pos (h.getD_le_buf (i := lo - 1) (by omega))]
      have hlast : v.split.getD (lo - 1) 0 = v.buffer.length := by
        rw [hn]
        exact h.last_getD
      rw [hlast, List.drop_length]
    · have hcl : lo < v.split.length := by omega
      rw [if_neg h0, if_neg hn, if_pos hcl]
      dsimp only
      rw [if_pos (Nat.le_refl _)]
      conv_lhs => unfold sliceRange
      dsimp only
      rw [if_pos ⟨Nat.le_refl _, h.getD_le_buf (by omega)⟩]
      rw [List.drop_eq_nil_iff.mpr (by
        exact Nat.le_trans (List.length_take_le _ _) (Nat.le_refl _))]

/-- C6 (amended): for a vector satisfying the structural offset invariant,
element indexing fails exactly when the index is at least the segment
count; sub-range indexing `[lo..hi]` fails exactly when `lo` or `hi`
exceeds the segment count or the resolved start byte offset strictly
exceeds the resolved end byte offset — so an inverted index range whose
two byte offsets coincide succeeds with an empty view rather than
failing; and an empty sub-range `[lo..lo]` at any position
`lo ≤ segment_count` yields the empty concatenated view. -/
theorem boundary_behavior_amended (v : Dynamic) (h : Inv v) :
    (∀ i, v.index i = none ↔ v.split.length ≤ i) ∧
    (∀ lo hi, v.indexRange lo hi = none ↔
      (v.split.length < lo ∨ v.split.length < hi ∨
        endOffC v hi < startOff v lo)) ∧
    (∀ lo, lo ≤ v.split.length → v.indexRange lo lo = some []) :=
  ⟨dyn_index_none_iff h, dyn_indexRange_none_iff h, dyn_indexRange_empty h⟩

/-- Witness for the amended C6 theorem at the concrete vector
`["a", "b"]`: indexing at the segment count fails, a sub-range end beyond
the segment count fails, and the empty sub-range at the end succeeds with
the empty view. -/
theorem boundary_behavior_amended_witness :
    (Dynamic.fromList [[97], [98]]).index 2 = none ∧
    (Dynamic.fromList [[97], [98]]).indexRange 0 3 = none ∧
    (Dynamic.fromList [[97], [98]]).indexRange 2 2 = some [] := by
  have h := boundary_behavior_amended (Dynamic.fromList [[97], [98]])
    (by decide)
  exact ⟨(h.1 2).mpr (by decide), (h.2.1 0 3).mpr (by decide),
    h.2.2 2 (by decide)⟩

/-- C10: checked construction from raw parts accepts a buffer longer than
the last split offset, validating only the delimited segments: for the
`str` kind, buffer `[0x61, 0xFF]` with offsets `[1, 1]` is accepted (both
delimited segments, `"a"` and `""`, are valid UTF-8), the last offset 1 is
below the buffer length 2, and the full-range view — produced by the
unchecked reinterpretation — is the whole buffer `[0x61, 0xFF]`, which is
not valid UTF-8 and was never validated. -/
theorem from_raw_accepts_unvalidated_tail :
    StaticArr.fromRaw utf8Valid [97, 255] [1, 1] =
      some ⟨[97, 255], [1, 1]⟩ ∧
    ([1, 1] : List Nat).getLast?.getD 0 < ([97, 255] : List Nat).length ∧
    (StaticArr.mk [97, 255] [1, 1]).indexFull = [97, 255] ∧
    utf8Valid [97, 255] = false := by
  decide

/-- The cumulative end-offset table produced by pushing the segments of
`S` in order after an existing total length `a` (specification artifact
for the proofs below). -/
def cumOffsets (a : Nat) : List (List Nat) → List Nat
  | [] => []
  | t :: ts => (a + t.length) :: cumOffsets (a + t.length) ts

/-- The byte offset at which segment `i` of the pristine vector built from
`S` starts: the total length of the first `i` segments. -/
def offAt (S : List (List Nat)) (i : Nat) : Nat :=
  ((S.take i).map List.length).sum

theorem cumOffsets_length (a : Nat) (S : List (List Nat)) :
    (cumOffsets a S).length = S.length := by
  induction S generalizing a with
  | nil => rfl
  | cons t ts ih => simp [cumOffsets, ih]

theorem extendList_spec (S : List (List Nat)) :
    ∀ v : Dynamic, v.extendList S =
      ⟨v.buffer ++ S.flatten,
       v.split ++ cumOffsets (v.split.getLast?.getD 0) S⟩ := by
  induction S with
  | nil =>
    intro v
    simp [Dynamic.extendList, cumOffsets]
  | cons t ts ih =>
    intro v
    show (v.push t).extendList ts = _
    rw [ih (v.push t)]
    simp [Dynamic.push, cumOffsets, List.getLast?_concat]

theorem fromList_spec (S : List (List Nat)) :
    Dynamic.fromList S = ⟨S.flatten, cumOffsets 0 S⟩ := by
  have h := extendList_spec S Dynamic.new
  simpa [Dynamic.fromList, Dynamic.extendList, Dynamic.new] using h

theorem cumOffsets_getD (S : List (List Nat)) :
    ∀ (a i : Nat), i < S.length →
      (cumOffsets a S).getD i 0 = a + offAt S (i + 1) := by
  induction S with
  | nil =>
    intro a i h
    exact absurd h (by simp)
  | cons t ts ih =>
    intro a i h
    cases i with
    | zero => simp [cumOffsets, offAt]
    | succ i =>
      simp only [cumOffsets, List.getD_cons_succ]
      rw [ih (a + t.length) i (by simpa using h)]
      simp [offAt, Nat.add_assoc]

theorem offAt_le_flatten_length (S : List (List Nat)) (i : Nat) :
    offAt S i ≤ S.flatten.length := by
  calc offAt S i = ((S.map List.length).take i).sum := by
        rw [offAt, List.map_take]
    _ ≤ ((S.map List.length).take i).sum + ((S.map List.length).drop i).sum :=
        Nat.le_add_right _ _
    _ = (S.map List.length).sum := by
        rw [← List.sum_append, List.take_append_drop]
    _ = S.flatten.length := (List.length_flatten S).symm

theorem take_succ_getD (S : List (List Nat)) (i : Nat) (h : i < S.length) :
    S.take (i + 1) = S.take i ++ [S.getD i []] := by
  rw [List.take_succ, List.getElem?_eq_getElem h]
  rw [List.getD_eq_getElem _ _ h]
  rfl

theorem offAt_succ (S : List (List Nat)) (i : Nat) (h : i < S.length) :
    offAt S (i + 1) = offAt S i + (S.getD i []).length := by
  rw [offAt, offAt, take_succ_getD S i h]
  simp

theorem fromList_splitGet (S : List (List Nat)) (i : Nat) (h : i < S.length) :
    splitGet (cumOffsets 0 S) i =
      some ⟨offAt S i, some (offAt S (i + 1))⟩ := by
  have hlen := cumOffsets_length 0 S
  unfold splitGet
  rw [hlen]
  rw [if_neg (by omega : ¬ i > S.length), if_neg (by omega : ¬ i = S.length)]
  by_cases h0 : i = 0
  · subst h0
    rw [if_pos rfl, cumOffsets_getD S 0 0 h]
    simp [offAt]
  · rw [if_neg h0]
    rw [cumOffsets_getD S 0 (i - 1) (by omega), cumOffsets_getD S 0 i h]
    have hi1 : i - 1 + 1 = i := by omega
    rw [hi1]
    simp

theorem flatten_take_boundary (S : List (List Nat)) (i : Nat) :
    S.flatten.take (offAt S i) = (S.take i).flatten := by
  have hsplit : S.flatten = (S.take i).flatten ++ (S.drop i).flatten := by
    rw [← List.flatten_append, List.take_append_drop]
  have hlen : (S.take i).flatten.length = offAt S i := by
    rw [List.length_flatten, offAt, List.map_take]
  rw [hsplit, List.take_left' hlen]

theorem flatten_slice_seg (S : List (List Nat)) (i : Nat) (h : i < S.length) :
    sliceRange S.flatten ⟨offAt S i, some (offAt S (i + 1))⟩ =
      some (S.getD i []) := by
  have h1 : offAt S i ≤ offAt S (i + 1) := by
    rw [offAt_succ S i h]
    omega
  have h2 : offAt S (i + 1) ≤ S.flatten.length := offAt_le_flatten_length S _
  unfold sliceRange
  dsimp only
  rw [if_pos ⟨h1, h2⟩]
  rw [flatten_take_boundary S (i + 1), take_succ_getD S i h]
  have hlen : (S.take i).flatten.length = offAt S i := by
    rw [List.length_flatten, offAt, List.map_take]
  rw [List.flatten_append, List.drop_left' (by rw [hlen])]
  simp

theorem segsAux_fromList (S : List (List Nat)) :
    ∀ (fuel i : Nat), i + fuel = S.length →
      (Dynamic.fromList S).segsAux i fuel = some (S.drop i) := by
  intro fuel
  induction fuel with
  | zero =>
    intro i h
    rw [List.drop_of_length_le (by omega)]
    rfl
  | succ fuel ih =>
    intro i h
    have hsplitlen : (Dynamic.fromList S).split.length = S.length := by
      rw [fromList_spec]
      exact cumOffsets_length 0 S
    have hi : i < S.length := by omega
    show Dynamic.segsAux _ i (fuel + 1) = _
    unfold Dynamic.segsAux
    rw [if_pos (by rw [hsplitlen]; exact hi)]
    have hsg : splitGet (Dynamic.fromList S).split i =
        some ⟨offAt S i, some (offAt S (i + 1))⟩ := by
      rw [fromList_spec]
      exact fromList_splitGet S i hi
    rw [hsg]
    dsimp only
    have hsl : sliceRange (Dynamic.fromList S).buffer
        ⟨offAt S i, some (offAt S (i + 1))⟩ = some (S.getD i []) := by
      rw [fromList_spec]
      exact flatten_slice_seg S i hi
    rw [hsl]
    dsimp only
    rw [ih (i + 1) (by omega)]
    dsimp only
    rw [List.drop_eq_getElem_cons hi, List.getD_eq_getElem _ _ hi]

/-- C7: collecting the iterator of the vector constructed by pushing the
segments of `S` in order yields exactly `S`: the iterator produces
`segment_count` views (one per split entry, and the count equals `S`'s
length), in order, each equal to the corresponding element of `S`. -/
theorem iter_fromList_roundtrip (S : List (List Nat)) :
    (Dynamic.fromList S).iterList = some S ∧
    (Dynamic.fromList S).split.length = S.length := by
  have hlen : (Dynamic.fromList S).split.length = S.length := by
    rw [fromList_spec]
    exact cumOffsets_length 0 S
  refine ⟨?_, hlen⟩
  unfold Dynamic.iterList
  rw [hlen]
  have h := segsAux_fromList S S.length 0 (by omega)
  simpa using h

/-- Witness for the round-trip theorem at the concrete list
`["a", "bc"]`. -/
theorem iter_fromList_roundtrip_witness :
    (Dynamic.fromList [[97], [98, 99]]).iterList = some [[97], [98, 99]] ∧
    (Dynamic.fromList [[97], [98, 99]]).split.length = 2 :=
  iter_fromList_roundtrip [[97], [98, 99]]

end Multistr
